import Mathlib

/-!
Shallow embedding of the two core utility components of the
modaljaguar-react-notes repository (file src/node-examples/JaguarFluxAPI.js):
the bounded-concurrency `RequestQueue` and the time/size-bounded `ImageCache`.

Timestamps are modelled as natural numbers (milliseconds); the current time is
passed explicitly to the operations that read `Date.now()`.  The JS `Map` is
modelled as an insertion-ordered association list with unique keys, matching
the iteration-order semantics of `Map`.  `Array.prototype.sort` with the
comparator `(a, b) => a[1].timestamp - b[1].timestamp` is a stable sort by
ascending timestamp, modelled by `List.insertionSort` (stable).  The JS idiom
`options.x || default`, which replaces the falsy value `0` by the default, is
modelled by `jsOrDefault` on `Option Nat`.
-/

set_option maxHeartbeats 1000000

/-- A cache entry as built by `ImageCache.set`: the stored value, the
insertion timestamp in milliseconds, and an access counter. -/
structure Entry (α : Type) where
  value : α
  timestamp : Nat
  accessCount : Nat
deriving DecidableEq

/-- JS `Map.prototype.get`: the entry stored under key `k`, if any. -/
def mapGet {α : Type} (m : List (String × Entry α)) (k : String) : Option (Entry α) :=
  (m.find? (fun p => p.1 == k)).map (fun p => p.2)

/-- JS `Map.prototype.set`: overwrite in place if the key is present
(keeping its position in iteration order), otherwise append at the end. -/
def mapSet {α : Type} (m : List (String × Entry α)) (k : String) (e : Entry α) :
    List (String × Entry α) :=
  if m.any (fun p => p.1 == k) then
    m.map (fun p => if p.1 == k then (k, e) else p)
  else m ++ [(k, e)]

/-- JS `Map.prototype.delete`: remove the entry with key `k`. -/
def mapDelete {α : Type} (m : List (String × Entry α)) (k : String) :
    List (String × Entry α) :=
  m.filter (fun p => !(p.1 == k))

/-- The comparator used by `ImageCache.cleanup`:
`(a, b) => a[1].timestamp - b[1].timestamp`, i.e. ascending timestamp. -/
def tsLE {α : Type} (a b : String × Entry α) : Prop :=
  a.2.timestamp ≤ b.2.timestamp

instance {α : Type} : DecidableRel (tsLE (α := α)) :=
  fun a b => inferInstanceAs (Decidable (a.2.timestamp ≤ b.2.timestamp))

instance {α : Type} : IsTotal (String × Entry α) tsLE :=
  ⟨fun a b => Nat.le_total a.2.timestamp b.2.timestamp⟩

instance {α : Type} : IsTrans (String × Entry α) tsLE :=
  ⟨fun _ _ _ h h' => Nat.le_trans h h'⟩

/-- The JS idiom `options.x || d` for a numeric option: an absent option or
the falsy value `0` both yield the default `d`. -/
def jsOrDefault (o : Option Nat) (d : Nat) : Nat :=
  match o with
  | none => d
  | some n => if n = 0 then d else n

/-- The `ImageCache` class: `maxSize`, `ttl`, and the backing `Map`. -/
structure ImageCache (α : Type) where
  maxSize : Nat
  ttl : Nat
  cache : List (String × Entry α)

namespace ImageCache

/-- The `ImageCache` constructor:
`this.maxSize = options.maxSize || 100; this.ttl = options.ttl || 3600000`. -/
def create {α : Type} (maxSize ttl : Option Nat) : ImageCache α :=
  { maxSize := jsOrDefault maxSize 100
    ttl := jsOrDefault ttl 3600000
    cache := [] }

/-- `ImageCache.cleanup`: if the entry count exceeds `maxSize`, sort the
entries by ascending timestamp (stable) and delete the first
`size - maxSize` of them from the map. -/
def cleanup {α : Type} (c : ImageCache α) : ImageCache α :=
  if c.cache.length ≤ c.maxSize then c
  else
    let entries := List.insertionSort tsLE c.cache
    let toRemove := entries.take (c.cache.length - c.maxSize)
    { c with cache := toRemove.foldl (fun m p => mapDelete m p.1) c.cache }

/-- `ImageCache.set`: store `⟨v, Date.now(), 1⟩` under `k`, then run
`cleanup`. -/
def set {α : Type} (c : ImageCache α) (now : Nat) (k : String) (v : α) :
    ImageCache α :=
  cleanup { c with cache := mapSet c.cache k ⟨v, now, 1⟩ }

/-- `ImageCache.get`: absent if no entry; if the entry is older than `ttl`,
delete it and report absent; otherwise bump `accessCount` in place and
return the value.  Returns the result together with the updated cache. -/
def get {α : Type} (c : ImageCache α) (now : Nat) (k : String) :
    Option α × ImageCache α :=
  match mapGet c.cache k with
  | none => (none, c)
  | some e =>
    if c.ttl < now - e.timestamp then
      (none, { c with cache := mapDelete c.cache k })
    else
      (some e.value,
        { c with cache := mapSet c.cache k ⟨e.value, e.timestamp, e.accessCount + 1⟩ })

end ImageCache

/-- A JSON-serializable primitive parameter value, as passed to
`ImageCache.createKey`. -/
inductive JValue where
  | str (s : String)
  | num (n : Int)
  | jsBool (b : Bool)
  | jsNull
deriving DecidableEq

/-- JSON string escaping of one character (quote and backslash). -/
def escapeChar (c : Char) : String :=
  if c = '"' then "\\\"" else if c = '\\' then "\\\\" else String.singleton c

/-- JSON string escaping, as applied by `JSON.stringify` to string data. -/
def jsonEscape (s : String) : String :=
  String.join (s.toList.map escapeChar)

/-- `JSON.stringify` on a primitive value. -/
def stringifyV : JValue → String
  | .str s => "\"" ++ jsonEscape s ++ "\""
  | .num n => toString n
  | .jsBool true => "true"
  | .jsBool false => "false"
  | .jsNull => "null"

/-- `ImageCache.createKey(options) = JSON.stringify(options)` for a flat
parameter object, whose fields are serialized in insertion order. -/
def createKey (ps : List (String × JValue)) : String :=
  "\x7b" ++
    String.intercalate ","
      (ps.map (fun p => "\"" ++ jsonEscape p.1 ++ "\":" ++ stringifyV p.2)) ++
  "\x7d"

/-- The `RequestQueue` class state: the configured maximum, the running
counter, and the pending list.  Pending and started operations are named by
natural-number identifiers; `started` records the order in which operations
began executing, and `finished` the settlement outcomes (`true` = resolved,
`false` = rejected). -/
structure RequestQueue where
  maxConcurrent : Nat
  running : Nat
  queue : List Nat
  started : List Nat
  finished : List (Nat × Bool)
deriving DecidableEq

namespace RequestQueue

/-- The `RequestQueue` constructor: running counter 0, empty pending list. -/
def initState (m : Nat) : RequestQueue :=
  { maxConcurrent := m, running := 0, queue := [], started := [], finished := [] }

/-- One synchronous run of `RequestQueue.process`: return unchanged if the
running counter is at the maximum or nothing is pending, otherwise increment
the counter, shift the head of the pending list and start it. -/
def processStep (s : RequestQueue) : RequestQueue :=
  if s.maxConcurrent ≤ s.running then s
  else
    match s.queue with
    | [] => s
    | i :: rest =>
      { s with running := s.running + 1, queue := rest, started := s.started ++ [i] }

/-- `RequestQueue.add`: push the new operation onto the pending list, then
call `process` (which runs synchronously up to the first await). -/
def addOp (s : RequestQueue) (i : Nat) : RequestQueue :=
  processStep { s with queue := s.queue ++ [i] }

/-- Settlement of a started operation `i` with outcome `ok`: the promise
settles (resolve or reject), then the `finally` block decrements the running
counter and calls `process` again. -/
def finishOp (s : RequestQueue) (i : Nat) (ok : Bool) : RequestQueue :=
  processStep
    { s with running := s.running - 1, finished := s.finished ++ [(i, ok)] }

/-- The operations that are currently in flight: started but not settled. -/
def inflight (s : RequestQueue) : List Nat :=
  s.started.filter (fun i => !(s.finished.any (fun p => p.1 == i)))

/-- The states reachable by the interleaved execution of a queue created with
maximum `m`: an `add` (of a fresh operation identifier) may arrive at any
time, and any in-flight operation may settle at any time.  The second index
is the arrival order of all submitted operations. -/
inductive Reachable : Nat → RequestQueue → List Nat → Prop
  | init (m : Nat) : Reachable m (initState m) []
  | add (m : Nat) (s : RequestQueue) (arr : List Nat) (i : Nat) :
      i ∉ arr → Reachable m s arr → Reachable m (addOp s i) (arr ++ [i])
  | finish (m : Nat) (s : RequestQueue) (arr : List Nat) (i : Nat) (ok : Bool) :
      i ∈ inflight s → Reachable m s arr → Reachable m (finishOp s i ok) arr

theorem processStep_maxConcurrent (s : RequestQueue) :
    (processStep s).maxConcurrent = s.maxConcurrent := by
  unfold processStep
  split
  · rfl
  · cases s.queue <;> rfl

theorem processStep_running_le (s : RequestQueue) (h : s.running ≤ s.maxConcurrent) :
    (processStep s).running ≤ s.maxConcurrent := by
  unfold processStep
  split
  · exact h
  · rename_i hlt
    cases hq : s.queue with
    | nil => exact h
    | cons i rest => simpa using Nat.lt_of_not_le hlt

theorem processStep_append (s : RequestQueue) :
    (processStep s).started ++ (processStep s).queue = s.started ++ s.queue := by
  unfold processStep
  split
  · rfl
  · cases hq : s.queue with
    | nil => simp [hq]
    | cons i rest => simp

/-- The basic state invariant of a reachable queue: the configured maximum is
the construction-time maximum, the running counter never exceeds it, and the
started operations followed by the pending operations are exactly the
arrivals in order. -/
theorem reachable_invariant (m : Nat) (s : RequestQueue) (arr : List Nat)
    (h : Reachable m s arr) :
    s.maxConcurrent = m ∧ s.running ≤ m ∧ s.started ++ s.queue = arr := by
  induction h with
  | init => exact ⟨rfl, Nat.zero_le m, rfl⟩
  | add s arr i hni hre ih =>
    obtain ⟨hm, hr, ha⟩ := ih
    subst hm
    refine ⟨by simp [addOp, processStep_maxConcurrent], ?_, ?_⟩
    · exact processStep_running_le { s with queue := s.queue ++ [i] } hr
    · rw [addOp, processStep_append, ← List.append_assoc, ha]
  | finish s arr i ok hin hre ih =>
    obtain ⟨hm, hr, ha⟩ := ih
    subst hm
    refine ⟨by simp [finishOp, processStep_maxConcurrent], ?_, ?_⟩
    · exact processStep_running_le
        { s with running := s.running - 1, finished := s.finished ++ [(i, ok)] }
        (le_trans (Nat.sub_le _ _) hr)
    · rw [finishOp, processStep_append]
      simpa using ha

end RequestQueue

section CacheLemmas

variable {α : Type}

theorem mapGet_mapSet_self (m : List (String × Entry α)) (k : String) (e : Entry α) :
    mapGet (mapSet m k e) k = some e := by
  unfold mapSet
  split
  · rename_i hany
    induction m with
    | nil => simp at hany
    | cons p t ih =>
      cases hp : (p.1 == k) with
      | true => simp [mapGet, List.find?, hp]
      | false =>
        have ht : t.any (fun p => p.1 == k) = true := by
          simp only [List.any_cons, hp, Bool.false_or] at hany
          exact hany
        simpa [mapGet, List.find?, hp] using ih ht
  · rename_i hany
    induction m with
    | nil => simp [mapGet, List.find?]
    | cons p t ih =>
      have hp : (p.1 == k) = false := by
        by_contra hc
        simp only [Bool.not_eq_false] at hc
        exact hany (by simp [List.any_cons, hc])
      have ht : ¬ t.any (fun p => p.1 == k) = true := by
        intro hc
        exact hany (by simp [List.any_cons, hc])
      simpa [mapGet, List.find?, hp] using ih ht

theorem mapGet_mapSet_ne (m : List (String × Entry α)) (k k' : String) (e : Entry α)
    (h : k' ≠ k) : mapGet (mapSet m k e) k' = mapGet m k' := by
  have hkk : (k == k') = false := by
    simp only [beq_eq_false_iff_ne, ne_eq]
    exact fun hc => h hc.symm
  unfold mapSet
  split
  · rename_i hany
    clear hany
    induction m with
    | nil => rfl
    | cons p t ih =>
      cases hp : (p.1 == k) with
      | true =>
        have hpk : p.1 = k := by simpa using hp
        have h2 : (p.1 == k') = false := by rw [hpk]; exact hkk
        simpa [mapGet, List.find?, hp, hkk, h2] using ih
      | false =>
        cases hp' : (p.1 == k') with
        | true => simp [mapGet, List.find?, hp, hp']
        | false => simpa [mapGet, List.find?, hp, hp'] using ih
  · rename_i hany
    clear hany
    induction m with
    | nil => simp [mapGet, List.find?, hkk]
    | cons p t ih =>
      cases hp' : (p.1 == k') with
      | true => simp [mapGet, List.find?, hp']
      | false => simpa [mapGet, List.find?, hp'] using ih

theorem any_eq_true_of_mapGet (m : List (String × Entry α)) (k : String)
    (e : Entry α) (h : mapGet m k = some e) :
    m.any (fun p => p.1 == k) = true := by
  unfold mapGet at h
  induction m with
  | nil => simp [List.find?] at h
  | cons p t ih =>
    cases hp : (p.1 == k) with
    | true => simp [List.any_cons, hp]
    | false =>
      simp only [List.find?, hp] at h
      simp [List.any_cons, hp, ih h]

theorem mapGet_eq_of_mem (m : List (String × Entry α)) (k : String) (e : Entry α)
    (hnd : (m.map Prod.fst).Nodup) (hmem : (k, e) ∈ m) :
    mapGet m k = some e := by
  induction m with
  | nil => simp at hmem
  | cons p t ih =>
    rcases List.mem_cons.mp hmem with heq | hmemt
    · subst heq
      simp [mapGet, List.find?]
    · have hp : (p.1 == k) = false := by
        have hk : k ∈ t.map Prod.fst := List.mem_map_of_mem Prod.fst hmemt
        have : p.1 ∉ t.map Prod.fst := (List.nodup_cons.mp (by simpa using hnd)).1
        simp only [beq_eq_false_iff_ne, ne_eq]
        intro hc
        exact this (hc ▸ hk)
      simp only [mapGet, List.find?, hp]
      exact ih (List.nodup_cons.mp (by simpa using hnd)).2 hmemt

theorem foldl_mapDelete_eq_filter (L : List (String × Entry α)) :
    ∀ (m : List (String × Entry α)),
      L.foldl (fun acc q => mapDelete acc q.1) m
        = m.filter (fun p => !(L.any (fun q => q.1 == p.1))) := by
  induction L with
  | nil => intro m; simp
  | cons q L ih =>
    intro m
    rw [List.foldl_cons, ih (mapDelete m q.1)]
    unfold mapDelete
    rw [List.filter_filter]
    apply List.filter_congr
    intro p _
    cases hqp : (q.1 == p.1) with
    | true =>
      have hh : q.1 = p.1 := by simpa using hqp
      simp [hh]
    | false =>
      have hh : ¬ q.1 = p.1 := by simpa using hqp
      have h2 : (p.1 == q.1) = false := by
        simp only [beq_eq_false_iff_ne, ne_eq]
        exact fun hc => hh hc.symm
      simp [h2, hqp]

theorem orderedInsert_append_single (a f : String × Entry α)
    (m : List (String × Entry α)) (h : tsLE a f) :
    List.orderedInsert tsLE a (m ++ [f]) = List.orderedInsert tsLE a m ++ [f] := by
  induction m with
  | nil =>
    simp only [List.nil_append, List.orderedInsert]
    rw [if_pos h]
    rfl
  | cons b m ih =>
    simp only [List.cons_append, List.orderedInsert]
    by_cases hab : tsLE a b
    · simp [hab]
    · simp [hab, ih]

theorem insertionSort_append_max (m : List (String × Entry α))
    (f : String × Entry α) (h : ∀ a ∈ m, tsLE a f) :
    List.insertionSort tsLE (m ++ [f]) = List.insertionSort tsLE m ++ [f] := by
  induction m with
  | nil => simp [List.insertionSort, List.orderedInsert]
  | cons a m ih =>
    simp only [List.cons_append, List.insertionSort, List.append_eq]
    rw [ih (fun b hb => h b (List.mem_cons_of_mem a hb)),
      orderedInsert_append_single a f _ (h a (List.mem_cons_self a m))]

theorem sorted_getLast_strict_max :
    ∀ (s : List (String × Entry α)) (f : String × Entry α),
      s.Sorted tsLE → f ∈ s →
      (∀ q ∈ s, q = f ∨ q.2.timestamp < f.2.timestamp) →
      s.getLast? = some f
  | [], f, _, hf, _ => absurd hf (List.not_mem_nil f)
  | [a], f, _, hf, _ => by
      have ha : f = a := by simpa using hf
      simp [ha]
  | a :: b :: t, f, hs, hf, hstrict => by
      have hs' : (b :: t).Sorted tsLE := hs.of_cons
      have hfin : f ∈ b :: t := by
        rcases List.mem_cons.mp hf with heq | h2
        · by_cases hbf : b = f
          · exact hbf ▸ List.mem_cons_self b t
          · exfalso
            have hb : b ∈ a :: b :: t := List.mem_cons_of_mem a (List.mem_cons_self b t)
            rcases hstrict b hb with hbe | hlt
            · exact hbf hbe
            · have hab : tsLE a b := List.rel_of_sorted_cons hs b (List.mem_cons_self b t)
              rw [← heq] at hab
              unfold tsLE at hab
              omega
        · exact h2
      have hrec : (b :: t).getLast? = some f :=
        sorted_getLast_strict_max (b :: t) f hs' hfin
          (fun q hq => hstrict q (List.mem_cons_of_mem a hq))
      simpa [List.getLast?_cons_cons] using hrec

theorem cleanup_of_le (c : ImageCache α) (h : c.cache.length ≤ c.maxSize) :
    ImageCache.cleanup c = c := by
  unfold ImageCache.cleanup
  rw [if_pos h]

theorem cleanup_maxSize (c : ImageCache α) :
    (ImageCache.cleanup c).maxSize = c.maxSize := by
  unfold ImageCache.cleanup
  split <;> rfl

theorem cleanup_ttl' (c : ImageCache α) :
    (ImageCache.cleanup c).ttl = c.ttl := by
  unfold ImageCache.cleanup
  split <;> rfl

theorem cleanup_cache_of_gt (c : ImageCache α) (h : c.maxSize < c.cache.length) :
    (ImageCache.cleanup c).cache
      = c.cache.filter (fun p =>
          !(((List.insertionSort tsLE c.cache).take (c.cache.length - c.maxSize)).any
              (fun q => q.1 == p.1))) := by
  unfold ImageCache.cleanup
  rw [if_neg (by omega)]
  exact foldl_mapDelete_eq_filter _ _

theorem nodup_keys_mapSet (m : List (String × Entry α)) (k : String) (e : Entry α)
    (h : (m.map Prod.fst).Nodup) : ((mapSet m k e).map Prod.fst).Nodup := by
  unfold mapSet
  split
  · have heq : (m.map (fun p => if p.1 == k then (k, e) else p)).map Prod.fst
        = m.map Prod.fst := by
      rw [List.map_map]
      apply List.map_congr_left
      intro p _
      cases hp : (p.1 == k) with
      | true =>
        have : p.1 = k := by simpa using hp
        simp [hp, this]
      | false =>
        have hne : ¬ p.1 = k := by simpa using hp
        simp [hne]
    rw [heq]
    exact h
  · rename_i hany
    have hk : k ∉ m.map Prod.fst := by
      intro hc
      rcases List.mem_map.mp hc with ⟨p, hp, hpk⟩
      exact hany (by
        simp only [List.any_eq_true]
        exact ⟨p, hp, by simp [hpk]⟩)
    rw [List.map_append]
    refine List.Nodup.append h (List.nodup_singleton k) ?_
    intro x hx hx2
    simp only [List.map_cons, List.map_nil, List.mem_singleton] at hx2
    exact hk (hx2 ▸ hx)

theorem mapSet_length (m : List (String × Entry α)) (k : String) (e : Entry α) :
    (mapSet m k e).length
      = if m.any (fun p => p.1 == k) then m.length else m.length + 1 := by
  unfold mapSet
  split <;> simp_all

theorem get_eq_of_some (c : ImageCache α) (now : Nat) (k : String) (e : Entry α)
    (hg : mapGet c.cache k = some e) :
    ImageCache.get c now k
      = if c.ttl < now - e.timestamp
        then (none, { c with cache := mapDelete c.cache k })
        else (some e.value,
          { c with cache :=
              mapSet c.cache k ⟨e.value, e.timestamp, e.accessCount + 1⟩ }) := by
  unfold ImageCache.get
  rw [hg]

theorem get_eq_of_none (c : ImageCache α) (now : Nat) (k : String)
    (hg : mapGet c.cache k = none) :
    ImageCache.get c now k = (none, c) := by
  unfold ImageCache.get
  rw [hg]

theorem mapGet_mem (m : List (String × Entry α)) (k : String) (e : Entry α)
    (h : mapGet m k = some e) : (k, e) ∈ m := by
  unfold mapGet at h
  cases hf : m.find? (fun p => p.1 == k) with
  | none => rw [hf] at h; simp at h
  | some p =>
    rw [hf] at h
    simp at h
    have hk : p.1 = k := by simpa using List.find?_some hf
    have hmem : p ∈ m := List.mem_of_find?_eq_some hf
    have : p = (k, e) := by
      cases p with
      | mk a b => simp only at hk h; rw [hk, h]
    exact this ▸ hmem

/-- The combinatorial core of `cleanup` in the overflow case: deleting the
keys of the first `m.length - M` timestamp-sorted entries from a map `m`
with distinct keys leaves exactly `M` entries, all of them entries of `m`,
and every removed entry has a timestamp at most that of every survivor. -/
theorem filter_take_spec (m : List (String × Entry α)) (M : Nat)
    (hnd : (m.map Prod.fst).Nodup) (h : M < m.length) :
    ((m.filter (fun p =>
        !(((List.insertionSort tsLE m).take (m.length - M)).any
          (fun q => q.1 == p.1)))).length = M) ∧
    (∀ q ∈ m.filter (fun p =>
        !(((List.insertionSort tsLE m).take (m.length - M)).any
          (fun q => q.1 == p.1))), q ∈ m) ∧
    (∀ p ∈ m, p ∉ m.filter (fun p =>
        !(((List.insertionSort tsLE m).take (m.length - M)).any
          (fun q => q.1 == p.1))) →
      ∀ q ∈ m.filter (fun p =>
        !(((List.insertionSort tsLE m).take (m.length - M)).any
          (fun q => q.1 == p.1))),
        p.2.timestamp ≤ q.2.timestamp) := by
  have hperm := List.perm_insertionSort tsLE m
  have hsorted := List.sorted_insertionSort tsLE m
  have hsplit := List.take_append_drop (m.length - M) (List.insertionSort tsLE m)
  have hpair : ∀ p ∈ (List.insertionSort tsLE m).take (m.length - M),
      ∀ q ∈ (List.insertionSort tsLE m).drop (m.length - M), tsLE p q :=
    (List.pairwise_append.mp (by rwa [hsplit])).2.2
  have hnds : ((List.insertionSort tsLE m).map Prod.fst).Nodup :=
    ((hperm.map Prod.fst).nodup_iff).mpr hnd
  have hdisj : ∀ p ∈ (List.insertionSort tsLE m).take (m.length - M),
      ∀ q ∈ (List.insertionSort tsLE m).drop (m.length - M), p.1 ≠ q.1 := by
    have h2 : (((List.insertionSort tsLE m).take (m.length - M) ++
        (List.insertionSort tsLE m).drop (m.length - M)).map Prod.fst).Nodup := by
      rw [hsplit]; exact hnds
    rw [List.map_append] at h2
    have h3 := (List.nodup_append.mp h2).2.2
    intro p hp q hq heq
    exact h3 (List.mem_map_of_mem Prod.fst hp) (heq ▸ List.mem_map_of_mem Prod.fst hq)
  have hmemTD : ∀ p ∈ m,
      p ∈ (List.insertionSort tsLE m).take (m.length - M) ∨
      p ∈ (List.insertionSort tsLE m).drop (m.length - M) := by
    intro p hp
    exact List.mem_append.mp (by rw [hsplit]; exact hperm.mem_iff.mpr hp)
  have hfL : ((List.insertionSort tsLE m).take (m.length - M)).filter (fun p =>
      !(((List.insertionSort tsLE m).take (m.length - M)).any
        (fun q => q.1 == p.1))) = [] := by
    apply List.filter_eq_nil_iff.mpr
    intro p hp
    have : ((List.insertionSort tsLE m).take (m.length - M)).any
        (fun q => q.1 == p.1) = true :=
      List.any_eq_true.mpr ⟨p, hp, by simp⟩
    simp [this]
  have hfD : ((List.insertionSort tsLE m).drop (m.length - M)).filter (fun p =>
      !(((List.insertionSort tsLE m).take (m.length - M)).any
        (fun q => q.1 == p.1))) = (List.insertionSort tsLE m).drop (m.length - M) := by
    apply List.filter_eq_self.mpr
    intro p hp
    simp only [Bool.not_eq_eq_eq_not, Bool.not_true, List.any_eq_false]
    intro q hq hqc
    exact hdisj q hq p hp (by simpa using hqc)
  have hfsort : (List.insertionSort tsLE m).filter (fun p =>
      !(((List.insertionSort tsLE m).take (m.length - M)).any
        (fun q => q.1 == p.1))) = (List.insertionSort tsLE m).drop (m.length - M) := by
    have h2 : (List.insertionSort tsLE m).filter (fun p =>
        !(((List.insertionSort tsLE m).take (m.length - M)).any
          (fun q => q.1 == p.1)))
        = ((List.insertionSort tsLE m).take (m.length - M) ++
            (List.insertionSort tsLE m).drop (m.length - M)).filter (fun p =>
          !(((List.insertionSort tsLE m).take (m.length - M)).any
            (fun q => q.1 == p.1))) := by rw [hsplit]
    rw [h2, List.filter_append, hfL, hfD, List.nil_append]
  have hresperm : List.Perm (m.filter (fun p =>
      !(((List.insertionSort tsLE m).take (m.length - M)).any
        (fun q => q.1 == p.1))))
      ((List.insertionSort tsLE m).drop (m.length - M)) := by
    have h1 := (hperm.symm).filter (fun p =>
      !(((List.insertionSort tsLE m).take (m.length - M)).any
        (fun q => q.1 == p.1)))
    rw [hfsort] at h1
    exact h1
  have hkept : ∀ q ∈ m.filter (fun p =>
      !(((List.insertionSort tsLE m).take (m.length - M)).any
        (fun q => q.1 == p.1))),
      q ∈ (List.insertionSort tsLE m).drop (m.length - M) := by
    intro q hq
    have hqm : q ∈ m := List.mem_of_mem_filter hq
    have hkeep : (!(((List.insertionSort tsLE m).take (m.length - M)).any
        (fun r => r.1 == q.1))) = true := (List.mem_filter.mp hq).2
    rcases hmemTD q hqm with hta | hda
    · exfalso
      have : ((List.insertionSort tsLE m).take (m.length - M)).any
          (fun r => r.1 == q.1) = true :=
        List.any_eq_true.mpr ⟨q, hta, by simp⟩
      rw [this] at hkeep
      simp at hkeep
    · exact hda
  refine ⟨?_, ?_, ?_⟩
  · rw [hresperm.length_eq, List.length_drop, hperm.length_eq]
    omega
  · intro q hq
    exact List.mem_of_mem_filter hq
  · intro p hp hpnot q hq
    have hkeepfalse : (!(((List.insertionSort tsLE m).take (m.length - M)).any
        (fun r => r.1 == p.1))) = false := by
      cases hb : (!(((List.insertionSort tsLE m).take (m.length - M)).any
          (fun r => r.1 == p.1))) with
      | false => rfl
      | true => exact absurd (List.mem_filter.mpr ⟨hp, hb⟩) hpnot
    have hany : ((List.insertionSort tsLE m).take (m.length - M)).any
        (fun r => r.1 == p.1) = true := by
      simpa using hkeepfalse
    obtain ⟨r, hr, hrp⟩ := List.any_eq_true.mp hany
    have hrp' : r.1 = p.1 := by simpa using hrp
    have hpt : p ∈ (List.insertionSort tsLE m).take (m.length - M) := by
      rcases hmemTD p hp with hta | hda
      · exact hta
      · exact absurd hrp' (hdisj r hr p hda)
    exact hpair p hpt q (hkept q hq)

end CacheLemmas

/-- Claim C3: get(k) returns the stored value exactly when an entry for k
exists and the elapsed time since its stored timestamp is at most the
configured time-to-live, in which case the access counter is incremented;
otherwise it returns absent, additionally removing the entry when it exists
but is expired.  In particular an entry inserted at time T with ttl = 1000
is present at T + 999 and absent at T + 1001. -/
theorem C3_get_contract {α : Type} (c : ImageCache α) (now : Nat) (k : String) :
    (∀ v : α, (ImageCache.get c now k).1 = some v ↔
      ∃ e : Entry α, mapGet c.cache k = some e ∧ e.value = v ∧
        now - e.timestamp ≤ c.ttl) ∧
    (∀ e : Entry α, mapGet c.cache k = some e → now - e.timestamp ≤ c.ttl →
      (ImageCache.get c now k).2.cache
        = mapSet c.cache k ⟨e.value, e.timestamp, e.accessCount + 1⟩) ∧
    (∀ e : Entry α, mapGet c.cache k = some e → c.ttl < now - e.timestamp →
      (ImageCache.get c now k).1 = none ∧
        (ImageCache.get c now k).2.cache = mapDelete c.cache k) ∧
    (mapGet c.cache k = none →
      (ImageCache.get c now k).1 = none ∧ (ImageCache.get c now k).2 = c) ∧
    (∀ (T : Nat) (v0 : α),
      (ImageCache.get ((ImageCache.create (some 10) (some 1000)).set T "x" v0)
          (T + 999) "x").1 = some v0 ∧
      (ImageCache.get ((ImageCache.create (some 10) (some 1000)).set T "x" v0)
          (T + 1001) "x").1 = none) := by
  refine ⟨?_, ?_, ?_, ?_, ?_⟩
  · intro v
    constructor
    · intro h1
      cases hg : mapGet c.cache k with
      | none => rw [get_eq_of_none c now k hg] at h1; simp at h1
      | some e =>
        rw [get_eq_of_some c now k e hg] at h1
        by_cases hexp : c.ttl < now - e.timestamp
        · rw [if_pos hexp] at h1; simp at h1
        · rw [if_neg hexp] at h1
          simp only [Option.some.injEq] at h1
          exact ⟨e, rfl, h1, by omega⟩
    · rintro ⟨e, hg, hv, hle⟩
      rw [get_eq_of_some c now k e hg, if_neg (by omega)]
      simp [hv]
  · intro e hg hle
    rw [get_eq_of_some c now k e hg, if_neg (by omega)]
  · intro e hg hexp
    rw [get_eq_of_some c now k e hg, if_pos hexp]
    exact ⟨rfl, rfl⟩
  · intro hg
    rw [get_eq_of_none c now k hg]
    exact ⟨rfl, rfl⟩
  · intro T v0
    have hset : (ImageCache.create (some 10) (some 1000)).set T "x" v0
        = (⟨10, 1000, [("x", ⟨v0, T, 1⟩)]⟩ : ImageCache α) := by
      unfold ImageCache.set ImageCache.create ImageCache.cleanup mapSet jsOrDefault
      simp
    rw [hset]
    have hg : mapGet (⟨10, 1000, [("x", ⟨v0, T, 1⟩)]⟩ : ImageCache α).cache "x"
        = some ⟨v0, T, 1⟩ := rfl
    constructor
    · rw [get_eq_of_some _ _ _ _ hg,
        if_neg (by show ¬ (1000 < T + 999 - T); omega)]
    · rw [get_eq_of_some _ _ _ _ hg,
        if_pos (by show 1000 < T + 1001 - T; omega)]

theorem C3_get_contract_witness :
    (mapGet (⟨10, 1000, [("k", ⟨7, 2, 1⟩)]⟩ : ImageCache Nat).cache "k"
        = some ⟨7, 2, 1⟩ ∧ 1000 < 1500 - 2) ∧
    (ImageCache.get (⟨10, 1000, [("k", ⟨7, 2, 1⟩)]⟩ : ImageCache Nat) 1500 "k").1
        = none ∧
      (ImageCache.get (⟨10, 1000, [("k", ⟨7, 2, 1⟩)]⟩ : ImageCache Nat) 1500 "k").2.cache
        = mapDelete (⟨10, 1000, [("k", ⟨7, 2, 1⟩)]⟩ : ImageCache Nat).cache "k" :=
  ⟨⟨rfl, by omega⟩,
    (C3_get_contract (⟨10, 1000, [("k", ⟨7, 2, 1⟩)]⟩ : ImageCache Nat) 1500 "k").2.2.1
      ⟨7, 2, 1⟩ rfl (by decide)⟩

/-- Claim C6 is false on the code: the constructor uses
`options.maxSize || 100`, so a configured maximum size of 0 (falsy) falls
back to the default 100; after set(k, v) the cache holds one entry and
get(k) returns the value, not absent. -/
theorem C6_counterexample :
    ((ImageCache.create (α := Nat) (some 0) (some 1000)).set 5 "k" 7).cache.length
        = 1 ∧
    (ImageCache.get ((ImageCache.create (α := Nat) (some 0) (some 1000)).set 5 "k" 7)
        5 "k").1 = some 7 := by
  exact ⟨rfl, rfl⟩

/-- Claim C6 (amended): an ImageCache constructed with maximum size 0 uses
the default maximum 100 and stores entries normally: after set(k, v) on the
fresh cache the entry count is 1 and an immediate get(k) returns v. -/
theorem C6_amended_thm (T : Nat) (k : String) (v : Nat) :
    (ImageCache.create (α := Nat) (some 0) (some 1000)).maxSize = 100 ∧
    ((ImageCache.create (α := Nat) (some 0) (some 1000)).set T k v).cache.length = 1 ∧
    (ImageCache.get ((ImageCache.create (α := Nat) (some 0) (some 1000)).set T k v)
        T k).1 = some v := by
  have hset : (ImageCache.create (α := Nat) (some 0) (some 1000)).set T k v
      = (⟨100, 1000, [(k, ⟨v, T, 1⟩)]⟩ : ImageCache Nat) := by
    unfold ImageCache.set ImageCache.create ImageCache.cleanup mapSet jsOrDefault
    simp
  refine ⟨rfl, by rw [hset]; rfl, ?_⟩
  rw [hset]
  have hg : mapGet (⟨100, 1000, [(k, ⟨v, T, 1⟩)]⟩ : ImageCache Nat).cache k
      = some ⟨v, T, 1⟩ := by
    simp [mapGet, List.find?]
  rw [get_eq_of_some _ _ _ _ hg, if_neg (by show ¬ (1000 < T - T); omega)]

/-- Claim C7 is false on the code: the constructor uses
`options.ttl || 3600000`, so a time-to-live of 0 (falsy) falls back to the
default of one hour; an entry inserted at time 5 is still present at time 6
rather than being treated as expired on the next read. -/
theorem C7_counterexample :
    (ImageCache.create (α := Nat) (some 10) (some 0)).ttl = 3600000 ∧
    (ImageCache.get ((ImageCache.create (α := Nat) (some 10) (some 0)).set 5 "k" 7)
        6 "k").1 = some 7 := by
  exact ⟨rfl, rfl⟩

/-- Claim C7 (amended): an ImageCache constructed with time-to-live 0 uses
the default time-to-live 3600000; an entry inserted at time T is still
present on a read at time T + 1. -/
theorem C7_amended_thm (T : Nat) (k : String) (v : Nat) :
    (ImageCache.create (α := Nat) (some 10) (some 0)).ttl = 3600000 ∧
    (ImageCache.get ((ImageCache.create (α := Nat) (some 10) (some 0)).set T k v)
        (T + 1) k).1 = some v := by
  have hset : (ImageCache.create (α := Nat) (some 10) (some 0)).set T k v
      = (⟨10, 3600000, [(k, ⟨v, T, 1⟩)]⟩ : ImageCache Nat) := by
    unfold ImageCache.set ImageCache.create ImageCache.cleanup mapSet jsOrDefault
    simp
  refine ⟨rfl, ?_⟩
  rw [hset]
  have hg : mapGet (⟨10, 3600000, [(k, ⟨v, T, 1⟩)]⟩ : ImageCache Nat).cache k
      = some ⟨v, T, 1⟩ := by
    simp [mapGet, List.find?]
  rw [get_eq_of_some _ _ _ _ hg, if_neg (by show ¬ (3600000 < T + 1 - T); omega)]

/-- Claim C8 is false on the code: createKey is JSON.stringify, which
serializes object fields in insertion order, so two parameter objects with
the same key-value pairs in different key order (structurally equal as sets
of pairs) yield different strings. -/
theorem C8_counterexample :
    ([("a", JValue.num 1), ("b", JValue.num 2)]).Perm
        [("b", JValue.num 2), ("a", JValue.num 1)] ∧
    createKey [("a", JValue.num 1), ("b", JValue.num 2)]
      ≠ createKey [("b", JValue.num 2), ("a", JValue.num 1)] := by
  exact ⟨by decide, by decide⟩

/-- Claim C8 (amended): createKey is deterministic - identical parameter
structures (same pairs in the same key order) yield identical strings - but
parameter objects with the same key-value pairs in a different key order can
yield different strings. -/
theorem C8_amended_thm (p q : List (String × JValue)) (h : p = q) :
    createKey p = createKey q ∧
    ∃ p' q' : List (String × JValue), p'.Perm q' ∧ createKey p' ≠ createKey q' :=
  ⟨by rw [h],
    ⟨[("width", JValue.num 4), ("steps", JValue.num 8)],
      [("steps", JValue.num 8), ("width", JValue.num 4)], by decide, by decide⟩⟩

theorem C8_amended_witness :
    ([("x", JValue.num 3)] = [("x", JValue.num 3)]) ∧
    (createKey [("x", JValue.num 3)] = createKey [("x", JValue.num 3)] ∧
      ∃ p' q' : List (String × JValue), p'.Perm q' ∧ createKey p' ≠ createKey q') :=
  ⟨rfl, C8_amended_thm [("x", JValue.num 3)] [("x", JValue.num 3)] rfl⟩

/-- Claim C2: after any set completes, the entry count does not exceed the
configured maximum; when the insertion makes the count exceed the maximum,
cleanup removes entries oldest-timestamp-first until the count is back at
the maximum, leaving newer entries untouched: every surviving entry is an
entry of the pre-cleanup map, and every removed entry has a timestamp at
most that of every surviving entry. -/
theorem C2_capacity_bound_and_oldest_first_eviction {α : Type} (c : ImageCache α)
    (now : Nat) (k : String) (v : α) (hnd : (c.cache.map Prod.fst).Nodup) :
    ((c.set now k v).cache.length ≤ c.maxSize) ∧
    (c.maxSize < (mapSet c.cache k ⟨v, now, 1⟩).length →
      (c.set now k v).cache.length = c.maxSize) ∧
    (∀ q ∈ (c.set now k v).cache, q ∈ mapSet c.cache k ⟨v, now, 1⟩) ∧
    (∀ p ∈ mapSet c.cache k ⟨v, now, 1⟩, p ∉ (c.set now k v).cache →
      ∀ q ∈ (c.set now k v).cache, p.2.timestamp ≤ q.2.timestamp) := by
  unfold ImageCache.set
  by_cases hover : (mapSet c.cache k ⟨v, now, 1⟩).length ≤ c.maxSize
  · rw [cleanup_of_le { c with cache := mapSet c.cache k ⟨v, now, 1⟩ } hover]
    exact ⟨hover, by intro hlt; omega, fun q hq => hq,
      fun p hp hpn => absurd hp hpn⟩
  · have hlt : c.maxSize < (mapSet c.cache k ⟨v, now, 1⟩).length := by omega
    have hnd' : ((mapSet c.cache k ⟨v, now, 1⟩).map Prod.fst).Nodup :=
      nodup_keys_mapSet c.cache k ⟨v, now, 1⟩ hnd
    obtain ⟨hlen, hsub, hold⟩ :=
      filter_take_spec (mapSet c.cache k ⟨v, now, 1⟩) c.maxSize hnd' hlt
    have hcachemk :
        (ImageCache.cleanup { c with cache := mapSet c.cache k ⟨v, now, 1⟩ }).cache
          = (mapSet c.cache k ⟨v, now, 1⟩).filter (fun p =>
              !(((List.insertionSort tsLE (mapSet c.cache k ⟨v, now, 1⟩)).take
                  ((mapSet c.cache k ⟨v, now, 1⟩).length - c.maxSize)).any
                (fun q => q.1 == p.1))) :=
      cleanup_cache_of_gt { c with cache := mapSet c.cache k ⟨v, now, 1⟩ } hlt
    rw [hcachemk]
    exact ⟨le_of_eq hlen, fun _ => hlen, hsub, hold⟩

theorem C2_capacity_bound_and_oldest_first_eviction_witness :
    (((⟨2, 1000, [("a", ⟨1, 0, 1⟩), ("b", ⟨2, 1, 1⟩)]⟩ :
        ImageCache Nat).cache.map Prod.fst).Nodup) ∧
    ((⟨2, 1000, [("a", ⟨1, 0, 1⟩), ("b", ⟨2, 1, 1⟩)]⟩ :
        ImageCache Nat).set 2 "c" 3).cache.length ≤ 2 :=
  ⟨by decide,
    (C2_capacity_bound_and_oldest_first_eviction
      (⟨2, 1000, [("a", ⟨1, 0, 1⟩), ("b", ⟨2, 1, 1⟩)]⟩ : ImageCache Nat)
      2 "c" 3 (by decide)).1⟩

/-- Claim C10: on any well-formed cache state (distinct keys, entry count
within the maximum, maximum at least one as any constructed cache has, and
no stored timestamp in the future), set(k, v) immediately followed by
get(k) at the same time returns v: the fresh entry is never evicted by the
cleanup run inside its own set and is not expired at zero elapsed age. -/
theorem C10_set_then_get_returns_value {α : Type} (c : ImageCache α) (now : Nat)
    (k : String) (v : α) (hnd : (c.cache.map Prod.fst).Nodup)
    (hmax : 1 ≤ c.maxSize) (hinv : c.cache.length ≤ c.maxSize)
    (hmono : ∀ p ∈ c.cache, p.2.timestamp ≤ now) :
    (ImageCache.get (c.set now k v) now k).1 = some v := by
  unfold ImageCache.set
  have hkey : mapGet
      (ImageCache.cleanup { c with cache := mapSet c.cache k ⟨v, now, 1⟩ }).cache k
      = some ⟨v, now, 1⟩ := by
    cases hany : c.cache.any (fun p => p.1 == k) with
    | true =>
      have hlen : (mapSet c.cache k ⟨v, now, 1⟩).length = c.cache.length := by
        rw [mapSet_length]
        simp [hany]
      rw [cleanup_of_le { c with cache := mapSet c.cache k ⟨v, now, 1⟩ }
        (show (mapSet c.cache k ⟨v, now, 1⟩).length ≤ c.maxSize by omega)]
      exact mapGet_mapSet_self c.cache k ⟨v, now, 1⟩
    | false =>
      have hm' : mapSet c.cache k ⟨v, now, 1⟩ = c.cache ++ [(k, ⟨v, now, 1⟩)] := by
        unfold mapSet
        rw [if_neg (by simp [hany])]
      have hlen : (mapSet c.cache k ⟨v, now, 1⟩).length = c.cache.length + 1 := by
        rw [hm']
        simp
      by_cases hle : (mapSet c.cache k ⟨v, now, 1⟩).length ≤ c.maxSize
      · rw [cleanup_of_le { c with cache := mapSet c.cache k ⟨v, now, 1⟩ } hle]
        exact mapGet_mapSet_self c.cache k ⟨v, now, 1⟩
      · have hlt : c.maxSize < (mapSet c.cache k ⟨v, now, 1⟩).length := by omega
        have hres :
            (ImageCache.cleanup { c with cache := mapSet c.cache k ⟨v, now, 1⟩ }).cache
              = (mapSet c.cache k ⟨v, now, 1⟩).filter (fun p =>
                  !(((List.insertionSort tsLE (mapSet c.cache k ⟨v, now, 1⟩)).take
                      ((mapSet c.cache k ⟨v, now, 1⟩).length - c.maxSize)).any
                    (fun q => q.1 == p.1))) :=
          cleanup_cache_of_gt { c with cache := mapSet c.cache k ⟨v, now, 1⟩ } hlt
        rw [hres]
        have hsort : List.insertionSort tsLE (mapSet c.cache k ⟨v, now, 1⟩)
            = List.insertionSort tsLE c.cache ++ [(k, ⟨v, now, 1⟩)] := by
          rw [hm']
          exact insertionSort_append_max c.cache (k, ⟨v, now, 1⟩)
            (fun a ha => hmono a ha)
        have ht : (mapSet c.cache k ⟨v, now, 1⟩).length - c.maxSize
            ≤ (List.insertionSort tsLE c.cache).length := by
          rw [List.length_insertionSort]
          omega
        have htake : (List.insertionSort tsLE (mapSet c.cache k ⟨v, now, 1⟩)).take
            ((mapSet c.cache k ⟨v, now, 1⟩).length - c.maxSize)
            = (List.insertionSort tsLE c.cache).take
                ((mapSet c.cache k ⟨v, now, 1⟩).length - c.maxSize) := by
          rw [hsort]
          exact List.take_append_of_le_length ht
        have hknot : ∀ p ∈ c.cache, (p.1 == k) = false := by
          intro p hp
          have h0 := List.any_eq_false.mp hany p hp
          cases hb : (p.1 == k) with
          | false => rfl
          | true => exact absurd hb h0
        have hfalse : ((List.insertionSort tsLE c.cache).take
            ((mapSet c.cache k ⟨v, now, 1⟩).length - c.maxSize)).any
            (fun q => q.1 == k) = false := by
          apply List.any_eq_false.mpr
          intro q hq hqc
          have hqsort : q ∈ List.insertionSort tsLE c.cache := List.mem_of_mem_take hq
          have hqm : q ∈ c.cache :=
            (List.perm_insertionSort tsLE c.cache).mem_iff.mp hqsort
          have h1 := hknot q hqm
          simp [h1] at hqc
        refine mapGet_eq_of_mem _ k ⟨v, now, 1⟩ ?_ ?_
        · exact (nodup_keys_mapSet c.cache k ⟨v, now, 1⟩ hnd).sublist
            ((List.filter_sublist (mapSet c.cache k ⟨v, now, 1⟩)).map Prod.fst)
        · apply List.mem_filter.mpr
          constructor
          · rw [hm']
            exact List.mem_append_right c.cache (List.mem_singleton_self _)
          · show (!((List.insertionSort tsLE (mapSet c.cache k ⟨v, now, 1⟩)).take
                ((mapSet c.cache k ⟨v, now, 1⟩).length - c.maxSize)).any
              (fun q => q.1 == k)) = true
            rw [htake, hfalse]
            rfl
  rw [get_eq_of_some _ now k ⟨v, now, 1⟩ hkey]
  rw [if_neg (by
    rw [cleanup_ttl' { c with cache := mapSet c.cache k ⟨v, now, 1⟩ }]
    show ¬ (c.ttl < now - now)
    omega)]

theorem C10_set_then_get_returns_value_witness :
    (((⟨1, 1000, [("a", ⟨5, 0, 1⟩)]⟩ : ImageCache Nat).cache.map Prod.fst).Nodup ∧
      1 ≤ (⟨1, 1000, [("a", ⟨5, 0, 1⟩)]⟩ : ImageCache Nat).maxSize ∧
      (⟨1, 1000, [("a", ⟨5, 0, 1⟩)]⟩ : ImageCache Nat).cache.length
        ≤ (⟨1, 1000, [("a", ⟨5, 0, 1⟩)]⟩ : ImageCache Nat).maxSize ∧
      ∀ p ∈ (⟨1, 1000, [("a", ⟨5, 0, 1⟩)]⟩ : ImageCache Nat).cache,
        p.2.timestamp ≤ 3) ∧
    (ImageCache.get ((⟨1, 1000, [("a", ⟨5, 0, 1⟩)]⟩ : ImageCache Nat).set 3 "b" 9)
        3 "b").1 = some 9 :=
  ⟨⟨by decide, by decide, by decide, by decide⟩,
    C10_set_then_get_returns_value (⟨1, 1000, [("a", ⟨5, 0, 1⟩)]⟩ : ImageCache Nat)
      3 "b" 9 (by decide) (by decide) (by decide) (by decide)⟩

/-- Claim C9: re-inserting an existing key k overwrites its entry with the
current timestamp and access count 1, keeps the entry count unchanged, and
(when the current time is strictly later than every other stored timestamp)
moves k to the newest position of the timestamp-sorted eviction order, so k
is the last candidate removed on the next capacity overflow. -/
theorem C9_reinsert_resets_and_moves_to_newest {α : Type} (c : ImageCache α)
    (now : Nat) (k : String) (v : α) (e0 : Entry α)
    (hpresent : mapGet c.cache k = some e0)
    (hinv : c.cache.length ≤ c.maxSize)
    (hfreshest : ∀ p ∈ c.cache, p.1 ≠ k → p.2.timestamp < now) :
    mapGet (c.set now k v).cache k = some ⟨v, now, 1⟩ ∧
    (c.set now k v).cache.length = c.cache.length ∧
    (List.insertionSort tsLE (c.set now k v).cache).getLast?
      = some (k, ⟨v, now, 1⟩) := by
  have hany : c.cache.any (fun p => p.1 == k) = true :=
    any_eq_true_of_mapGet c.cache k e0 hpresent
  have hlen : (mapSet c.cache k ⟨v, now, 1⟩).length = c.cache.length := by
    rw [mapSet_length]
    simp [hany]
  unfold ImageCache.set
  rw [cleanup_of_le { c with cache := mapSet c.cache k ⟨v, now, 1⟩ }
    (show (mapSet c.cache k ⟨v, now, 1⟩).length ≤ c.maxSize by omega)]
  have hm' : mapSet c.cache k ⟨v, now, 1⟩
      = c.cache.map (fun p => if p.1 == k then (k, ⟨v, now, 1⟩) else p) := by
    unfold mapSet
    rw [if_pos hany]
  refine ⟨mapGet_mapSet_self c.cache k ⟨v, now, 1⟩, hlen, ?_⟩
  apply sorted_getLast_strict_max
  · exact List.sorted_insertionSort tsLE (mapSet c.cache k ⟨v, now, 1⟩)
  · apply (List.perm_insertionSort tsLE (mapSet c.cache k ⟨v, now, 1⟩)).mem_iff.mpr
    exact mapGet_mem (mapSet c.cache k ⟨v, now, 1⟩) k ⟨v, now, 1⟩
      (mapGet_mapSet_self c.cache k ⟨v, now, 1⟩)
  · intro q hq
    have hqm : q ∈ mapSet c.cache k ⟨v, now, 1⟩ :=
      (List.perm_insertionSort tsLE (mapSet c.cache k ⟨v, now, 1⟩)).mem_iff.mp hq
    rw [hm'] at hqm
    rcases List.mem_map.mp hqm with ⟨p, hp, hfp⟩
    cases hpk : (p.1 == k) with
    | true =>
      left
      rw [hpk] at hfp
      simp only [if_true] at hfp
      exact hfp.symm
    | false =>
      right
      rw [hpk] at hfp
      simp only [Bool.false_eq_true, if_false] at hfp
      have hpne : p.1 ≠ k := by simpa using hpk
      have := hfreshest p hp hpne
      rw [← hfp]
      simpa using this

theorem C9_reinsert_resets_and_moves_to_newest_witness :
    (mapGet (⟨3, 1000, [("a", ⟨1, 0, 1⟩), ("b", ⟨2, 1, 1⟩)]⟩ :
        ImageCache Nat).cache "a" = some ⟨1, 0, 1⟩ ∧
      (⟨3, 1000, [("a", ⟨1, 0, 1⟩), ("b", ⟨2, 1, 1⟩)]⟩ :
        ImageCache Nat).cache.length ≤ 3 ∧
      (∀ p ∈ (⟨3, 1000, [("a", ⟨1, 0, 1⟩), ("b", ⟨2, 1, 1⟩)]⟩ :
        ImageCache Nat).cache, p.1 ≠ "a" → p.2.timestamp < 5)) ∧
    mapGet ((⟨3, 1000, [("a", ⟨1, 0, 1⟩), ("b", ⟨2, 1, 1⟩)]⟩ :
        ImageCache Nat).set 5 "a" 9).cache "a" = some ⟨9, 5, 1⟩ :=
  ⟨⟨rfl, by decide, by decide⟩,
    (C9_reinsert_resets_and_moves_to_newest
      (⟨3, 1000, [("a", ⟨1, 0, 1⟩), ("b", ⟨2, 1, 1⟩)]⟩ : ImageCache Nat)
      5 "a" 9 ⟨1, 0, 1⟩ rfl (by decide) (by decide)).1⟩

/-- Claim C1: for every RequestQueue configured with maximum concurrency
N ≥ 1 and every sequence of operations submitted via add, the running
counter never exceeds N at any point of the interleaved execution. -/
theorem C1_running_never_exceeds_max (m : Nat) (s : RequestQueue) (arr : List Nat)
    (hm : 1 ≤ m) (h : RequestQueue.Reachable m s arr) : s.running ≤ m :=
  (RequestQueue.reachable_invariant m s arr h).2.1

theorem C1_running_never_exceeds_max_witness :
    1 ≤ 2 ∧ (((RequestQueue.initState 2).addOp 0).addOp 1).running ≤ 2 :=
  ⟨by decide,
    C1_running_never_exceeds_max 2 _ [0, 1] (by decide)
      (RequestQueue.Reachable.add 2 _ [0] 1 (by decide)
        (RequestQueue.Reachable.add 2 _ [] 0 (by decide)
          (RequestQueue.Reachable.init 2)))⟩

/-- Claim C4: operations begin execution in exactly their submission order:
at every reachable point, the list of started operations followed by the
pending list is exactly the arrival order, so the started list is a prefix
of the submission order. -/
theorem C4_started_in_submission_order (m : Nat) (s : RequestQueue)
    (arr : List Nat) (h : RequestQueue.Reachable m s arr) :
    s.started ++ s.queue = arr ∧ ∃ rest, s.started ++ rest = arr :=
  ⟨(RequestQueue.reachable_invariant m s arr h).2.2,
    s.queue, (RequestQueue.reachable_invariant m s arr h).2.2⟩

theorem C4_started_in_submission_order_witness :
    ((((RequestQueue.initState 1).addOp 5).addOp 7).started ++
        (((RequestQueue.initState 1).addOp 5).addOp 7).queue = [5, 7]) ∧
      ∃ rest, (((RequestQueue.initState 1).addOp 5).addOp 7).started ++ rest = [5, 7] :=
  C4_started_in_submission_order 1 _ [5, 7]
    (RequestQueue.Reachable.add 1 _ [5] 7 (by decide)
      (RequestQueue.Reachable.add 1 _ [] 5 (by decide)
        (RequestQueue.Reachable.init 1)))

/-- Claim C5: when an admitted operation fails, only its own outcome records
the rejection, the running counter is restored, and a pending operation
still starts once the failing one settles: from a reachable full state with
a nonempty pending list, finishing operation i with failure appends exactly
(i, false) to the outcomes, starts the head j of the pending list, and
leaves the running counter at the maximum. -/
theorem C5_failure_does_not_block (m : Nat) (s : RequestQueue) (arr : List Nat)
    (i j : Nat) (rest : List Nat) (h : RequestQueue.Reachable m s arr)
    (hin : i ∈ RequestQueue.inflight s) (hfull : s.running = m) (hm : 1 ≤ m)
    (hq : s.queue = j :: rest) :
    (s.finishOp i false).running = m ∧
      (s.finishOp i false).started = s.started ++ [j] ∧
      (s.finishOp i false).queue = rest ∧
      (s.finishOp i false).finished = s.finished ++ [(i, false)] := by
  obtain ⟨hm', hr, ha⟩ := RequestQueue.reachable_invariant m s arr h
  subst hm'
  have h1 : ¬ s.maxConcurrent ≤ s.running - 1 := by omega
  simp only [RequestQueue.finishOp, RequestQueue.processStep, hq, h1, if_false]
  refine ⟨by omega, by simp, by simp, by simp⟩

theorem C5_failure_does_not_block_witness :
    (1 ∈ RequestQueue.inflight ((((RequestQueue.initState 2).addOp 0).addOp 1).addOp 2) ∧
      ((((RequestQueue.initState 2).addOp 0).addOp 1).addOp 2).running = 2 ∧
      1 ≤ 2 ∧
      ((((RequestQueue.initState 2).addOp 0).addOp 1).addOp 2).queue = [2]) ∧
    (((((RequestQueue.initState 2).addOp 0).addOp 1).addOp 2).finishOp 1 false).running = 2 ∧
      (((((RequestQueue.initState 2).addOp 0).addOp 1).addOp 2).finishOp 1 false).started =
        ((((RequestQueue.initState 2).addOp 0).addOp 1).addOp 2).started ++ [2] ∧
      (((((RequestQueue.initState 2).addOp 0).addOp 1).addOp 2).finishOp 1 false).queue = [] ∧
      (((((RequestQueue.initState 2).addOp 0).addOp 1).addOp 2).finishOp 1 false).finished =
        ((((RequestQueue.initState 2).addOp 0).addOp 1).addOp 2).finished ++ [(1, false)] :=
  ⟨⟨by decide, by decide, by decide, by decide⟩,
    C5_failure_does_not_block 2 _ [0, 1, 2] 1 2 []
      (RequestQueue.Reachable.add 2 _ [0, 1] 2 (by decide)
        (RequestQueue.Reachable.add 2 _ [0] 1 (by decide)
          (RequestQueue.Reachable.add 2 _ [] 0 (by decide)
            (RequestQueue.Reachable.init 2))))
      (by decide) (by decide) (by decide) (by decide)⟩
